import Mathlib

/-!
# Verification of the broadcast node (src/src/bin/broadcast.rs)

Shallow embedding of the gossip/broadcast node.  Node ids of the form
"n<k>" are represented by the ordinal `k` (the value `node_num` parses out
of the id string).  Rust `HashMap`s are represented by association lists
(`List (Nat × β)`) and Rust `HashSet<usize>` by `List Nat` with
set-flavoured insertion; `WFNode` records the key-uniqueness invariants
that every Rust state enjoys by construction of `HashMap`/`HashSet`.
Panics (`expect`) are modelled by `Option`: a `none` result is a panic.
-/

abbrev Datum := Nat

/-- `DatumStatus` from broadcast.rs. -/
inductive DatumStatus
  | SentUnconfirmed
  | ReceivedUnconfirmed
  | Confirmed
  deriving DecidableEq, Repr

abbrev PeerTable := List (Datum × DatumStatus)

/-- `HashMap::get` on an association list. -/
def lookupA {β : Type} (k : Nat) : List (Nat × β) → Option β
  | [] => none
  | e :: rest => if k = e.1 then some e.2 else lookupA k rest

/-- `HashMap::insert` (overwrite an existing key in place, else append). -/
def setA {β : Type} (k : Nat) (v : β) : List (Nat × β) → List (Nat × β)
  | [] => [(k, v)]
  | e :: rest => if k = e.1 then (k, v) :: rest else e :: setA k v rest

/-- The key set (as a list) of an association list. -/
def keysA {β : Type} (m : List (Nat × β)) : List Nat := m.map Prod.fst

/-- `HashSet::insert`: no-op when already present. -/
def insertS (d : Nat) (s : List Nat) : List Nat := if d ∈ s then s else s ++ [d]

/-- `HashSet::extend`: insert every element of `l`. -/
def extendS (l : List Nat) (s : List Nat) : List Nat :=
  l.foldl (fun s d => insertS d s) s

/-- `N_GROUPS` from broadcast.rs. -/
def N_GROUPS : Nat := 5

/-- `node_group` from broadcast.rs (on the parsed ordinal). -/
def node_group (v : Nat) : Nat := v % N_GROUPS

/-- The peer condition of `BroadcastNode::new`: `other` is inserted into
`peer_data` exactly when this holds (trunk case for `this < N_GROUPS`,
branch case otherwise), transcribed from the two `if` conditions. -/
def peerCond (this_node_num other_node_num : Nat) : Prop :=
  if this_node_num < N_GROUPS then
    node_group other_node_num = node_group this_node_num
      ∨ other_node_num = (5 + this_node_num + 1) % N_GROUPS
      ∨ other_node_num = (5 + this_node_num - 1) % N_GROUPS
  else
    other_node_num = node_group this_node_num
      ∨ (other_node_num = this_node_num + 5
          ∧ other_node_num % (2 * N_GROUPS) = node_group this_node_num)
      ∨ (other_node_num + 5 = this_node_num
          ∧ this_node_num % (2 * N_GROUPS) = node_group this_node_num)

instance (t o : Nat) : Decidable (peerCond t o) := by
  unfold peerCond
  infer_instance

/-- The `peer_data` map built by `BroadcastNode::new`: fold over the roster,
inserting an empty table for every peer satisfying `peerCond`. -/
def buildPeers (self : Nat) (roster : List Nat) : List (Nat × PeerTable) :=
  roster.foldl (fun acc o => if peerCond self o then setA o [] acc else acc) []

/-- The key set of the startup `peer_data` (the PeerSet of the spec). -/
def peerKeys (self : Nat) (roster : List Nat) : List Nat :=
  keysA (buildPeers self roster)

/-- The state of `BroadcastNode` (output handle omitted; it carries no data). -/
structure BroadcastNode where
  id : Nat
  msg_id : Nat
  seen_data : List Datum
  peer_data : List (Nat × PeerTable)
  deriving DecidableEq, Repr

/-- `BroadcastNode::new` followed by the `init_ok` reply of `run`
(which bumps `msg_id` from 0 to 1). -/
def initNode (id : Nat) (roster : List Nat) : BroadcastNode :=
  { id := id, msg_id := 1, seen_data := [], peer_data := buildPeers id roster }

/-- The payload variants of `BroadcastMessages` (field payloads of the
reply-only variants kept; `Topology` carries its ignored map). -/
inductive BroadcastMessages
  | Broadcast (message : Datum)
  | Gossip (data_you_need : List Datum) (data_i_received_from_you : List Datum)
  | Read
  | Topology (topology : List (Nat × List Nat))
  | ReadOk (messages : List Datum)
  | BroadcastOk
  | TopologyOk
  deriving DecidableEq, Repr

/-- The `data_you_need.difference(&self.seen_data)` iterator of the Gossip
arm: the gossiped data this node has not yet seen. -/
def newGossipData (n : BroadcastNode) (data_you_need : List Datum) : List Datum :=
  data_you_need.filter (fun d => decide (d ∉ n.seen_data))

/-- The sender's table after the `data_you_need` loop of the Gossip arm:
start from `peer_data.entry(src).or_insert(HashMap::new())` and set every
newly seen datum to `ReceivedUnconfirmed`. -/
def gossipPd1 (n : BroadcastNode) (src : Nat) (data_you_need : List Datum) : PeerTable :=
  (newGossipData n data_you_need).foldl
    (fun pd d => setA d DatumStatus.ReceivedUnconfirmed pd)
    ((lookupA src n.peer_data).getD [])

/-- The `data_i_received_from_you` loop: set each datum's entry to
`Confirmed`; `expect` (panic) when the entry is missing. -/
def confirmAll : PeerTable → List Datum → Option PeerTable
  | pd, [] => some pd
  | pd, d :: rest =>
    if (lookupA d pd).isSome then confirmAll (setA d DatumStatus.Confirmed pd) rest
    else none

/-- The whole Gossip arm of `handle_msg` (`none` = panic). -/
def recordGossip (n : BroadcastNode) (src : Nat)
    (data_you_need data_i_received_from_you : List Datum) : Option BroadcastNode :=
  match confirmAll (gossipPd1 n src data_you_need) data_i_received_from_you with
  | none => none
  | some pd2 =>
    some { n with
      seen_data := extendS (newGossipData n data_you_need) n.seen_data,
      peer_data := setA src pd2 n.peer_data }

/-- `BroadcastNode::handle_msg`.  The reply paths bump `msg_id` via
`reply`/`send_msg`; the Gossip arm sends nothing. -/
def handle_msg (n : BroadcastNode) (src : Nat) (m : BroadcastMessages) :
    Option BroadcastNode :=
  match m with
  | .Broadcast message =>
    some { n with seen_data := insertS message n.seen_data, msg_id := n.msg_id + 1 }
  | .Read => some { n with msg_id := n.msg_id + 1 }
  | .Topology _ => some { n with msg_id := n.msg_id + 1 }
  | .Gossip dyn dirfy => recordGossip n src dyn dirfy
  | .BroadcastOk => some n
  | .ReadOk _ => some n
  | .TopologyOk => some n

/-- The backfill loop body of `bg_task` for one peer: give every seen datum
without an entry a `SentUnconfirmed` entry. -/
def backfillPeer (seen : List Datum) (pd : PeerTable) : PeerTable :=
  seen.foldl
    (fun pd d => if (lookupA d pd).isSome then pd else setA d DatumStatus.SentUnconfirmed pd)
    pd

/-- `peer_data` after the backfill loop of `bg_task`. -/
def bgBackfill (n : BroadcastNode) : List (Nat × PeerTable) :=
  n.peer_data.map (fun e => (e.1, backfillPeer n.seen_data e.2))

/-- The `data_you_need` set sent for one peer: the data with status
`SentUnconfirmed` in its table. -/
def sentOf (pd : PeerTable) : List Datum :=
  (pd.filter (fun q => decide (q.2 = DatumStatus.SentUnconfirmed))).map Prod.fst

/-- The `data_i_received_from_you` set sent for one peer: the data with
status `ReceivedUnconfirmed` in its table. -/
def recvOf (pd : PeerTable) : List Datum :=
  (pd.filter (fun q => decide (q.2 = DatumStatus.ReceivedUnconfirmed))).map Prod.fst

/-- The gossip messages dispatched by `bg_task`, one per entry of the
(backfilled) `peer_data`, keyed by destination peer. -/
def bgMsgs (n : BroadcastNode) : List (Nat × (List Datum × List Datum)) :=
  (bgBackfill n).map (fun e => (e.1, (sentOf e.2, recvOf e.2)))

/-- `BroadcastNode::bg_task`: the new state paired with the dispatched
gossip messages (`msg_id` advances by the number of peers). -/
def bg_task (n : BroadcastNode) : BroadcastNode × List (Nat × (List Datum × List Datum)) :=
  ({ n with peer_data := bgBackfill n, msg_id := n.msg_id + (bgBackfill n).length },
   bgMsgs n)

/-- One event of the `run` event loop: an inbound message or a tick. -/
inductive Event
  | msg (src : Nat) (m : BroadcastMessages)
  | tick
  deriving DecidableEq, Repr

/-- One step of the event-loop consumer (`none` = the process panics). -/
def step (n : BroadcastNode) : Event → Option BroadcastNode
  | .msg src m => handle_msg n src m
  | .tick => some (bg_task n).1

/-- Status of a (peer, datum) pair in the convergence table. -/
def lookupPD (n : BroadcastNode) (p d : Nat) : Option DatumStatus :=
  (lookupA p n.peer_data).bind (fun pd => lookupA d pd)

/-- Key-uniqueness invariants every Rust state has by construction
(`HashMap` keys and `HashSet` elements are distinct). -/
def WFNode (n : BroadcastNode) : Prop :=
  (keysA n.peer_data).Nodup
    ∧ (∀ e ∈ n.peer_data, (keysA e.2).Nodup)
    ∧ n.seen_data.Nodup

instance (n : BroadcastNode) : Decidable (WFNode n) := by
  unfold WFNode
  infer_instance

/-- Reachability invariant: every tracked (peer, datum) entry concerns a
datum this node has seen. -/
def EntriesSeen (n : BroadcastNode) : Prop :=
  ∀ e ∈ n.peer_data, ∀ q ∈ e.2, q.1 ∈ n.seen_data

instance (n : BroadcastNode) : Decidable (EntriesSeen n) := by
  unfold EntriesSeen
  infer_instance

/-- The 25-node roster n0..n24 (as ordinals). -/
def roster25 : List Nat := List.range 25

/-- The startup PeerSet of node `a` over the 25-node roster. -/
def adjList (a : Nat) : List Nat := peerKeys a roster25

/-- The undirected peer graph of the claim: an edge between `a` and `b`
when `b` is in `a`'s PeerSet (symmetrised). -/
def adjU (a b : Nat) : Bool := (adjList a).contains b || (adjList b).contains a

/-- One breadth-first expansion over the 25 node ordinals. -/
def stepU (adj : Nat → Nat → Bool) (fr : List Nat) : List Nat :=
  (List.range 25).filter (fun b => fr.contains b || fr.any (fun x => adj x b))

/-- The set of nodes within `k` hops of the frontier `fr`. -/
def ballU (adj : Nat → Nat → Bool) : Nat → List Nat → List Nat
  | 0, fr => fr
  | k + 1, fr => ballU adj k (stepU adj fr)

/-- `adjU` with the two edges 0-1 and 0-15 removed. -/
def adjCut (a b : Nat) : Bool :=
  adjU a b &&
    !((a == 0 && b == 1) || (a == 1 && b == 0) || (a == 0 && b == 15) || (a == 15 && b == 0))

/-- The neighbour lists of the 25-node peer graph, tabulated (proved equal
to `adjList` below; used to keep kernel evaluation cheap). -/
def adjTab : List (Nat × List Nat) :=
  [(0, [0, 1, 4, 5, 10, 15, 20]), (1, [0, 1, 2, 6, 11, 16, 21]),
   (2, [1, 2, 3, 7, 12, 17, 22]), (3, [2, 3, 4, 8, 13, 18, 23]),
   (4, [0, 3, 4, 9, 14, 19, 24]), (5, [0, 10]), (6, [1, 11]), (7, [2, 12]),
   (8, [3, 13]), (9, [4, 14]), (10, [0, 5]), (11, [1, 6]), (12, [2, 7]),
   (13, [3, 8]), (14, [4, 9]), (15, [0, 20]), (16, [1, 21]), (17, [2, 22]),
   (18, [3, 23]), (19, [4, 24]), (20, [0, 15]), (21, [1, 16]), (22, [2, 17]),
   (23, [3, 18]), (24, [4, 19])]

/-- Tabulated neighbour list. -/
def tabNbr (a : Nat) : List Nat := (lookupA a adjTab).getD []

/-- Tabulated version of `adjU`. -/
def adjT (a b : Nat) : Bool := (tabNbr a).contains b || (tabNbr b).contains a

/-- Tabulated version of `adjCut`. -/
def adjTCut (a b : Nat) : Bool :=
  adjT a b &&
    !((a == 0 && b == 1) || (a == 1 && b == 0) || (a == 0 && b == 15) || (a == 15 && b == 0))


/-- Modelled from the spec (claim C5): the peer set the spec asserts for a
trunk node — every *branch* node of its own group plus the two adjacent
ring trunks, and nothing else.  Used only to compare against the peer set
the code actually builds. -/
def claimedTrunkPeers (t : Nat) (roster : List Nat) : List Nat :=
  roster.filter (fun o =>
    decide ((5 <= o ∧ o % 5 = t % 5) ∨ o = (5 + t + 1) % 5 ∨ o = (5 + t - 1) % 5))

/-- Sample state: node 7 with datum 41 confirmed at peer 2. -/
def wNode : BroadcastNode :=
  { id := 7, msg_id := 1, seen_data := [41],
    peer_data := [(2, [(41, DatumStatus.Confirmed)]), (12, [])] }

/-- `wNode` after one gossip tick (both peers backfilled, two sends). -/
def wNodeTick : BroadcastNode :=
  { id := 7, msg_id := 3, seen_data := [41],
    peer_data := [(2, [(41, DatumStatus.Confirmed)]),
                  (12, [(41, DatumStatus.SentUnconfirmed)])] }

/-- Sample state: node 7 that has just learned datum 41 from peer 2. -/
def wNode2 : BroadcastNode :=
  { id := 7, msg_id := 1, seen_data := [41],
    peer_data := [(2, [(41, DatumStatus.ReceivedUnconfirmed)]), (12, [])] }


/-- `wNode2` after a gossip from n2 with `data_you_need = [5, 41]`. -/
def wNode2G : BroadcastNode :=
  { id := 7, msg_id := 1, seen_data := [41, 5],
    peer_data := [(2, [(41, DatumStatus.ReceivedUnconfirmed),
                       (5, DatumStatus.ReceivedUnconfirmed)]), (12, [])] }

/-- `wNode2` after a broadcast of the already-seen datum 41. -/
def wNode2B : BroadcastNode :=
  { id := 7, msg_id := 2, seen_data := [41],
    peer_data := [(2, [(41, DatumStatus.ReceivedUnconfirmed)]), (12, [])] }

/-! ## Association-list and set lemmas -/

theorem lookupA_setA {β : Type} (k k' : Nat) (v : β) (m : List (Nat × β)) :
    lookupA k (setA k' v m) = if k = k' then some v else lookupA k m := by
  induction m with
  | nil => simp [setA, lookupA]
  | cons e rest ih =>
    simp only [setA]
    by_cases h1 : k' = e.1
    · rw [if_pos h1]
      by_cases h2 : k = k'
      · simp [lookupA, h2]
      · have h3 : ¬ k = e.1 := fun hk => h2 (hk.trans h1.symm)
        simp [lookupA, h2, h3]
    · rw [if_neg h1]
      simp only [lookupA]
      by_cases h2 : k = e.1
      · have h3 : ¬ k = k' := fun hk => h1 (hk.symm.trans h2)
        simp only [if_pos h2, if_neg h3]
      · simp [h2, ih]

theorem mem_keysA_setA {β : Type} (a k : Nat) (v : β) (m : List (Nat × β)) :
    a ∈ keysA (setA k v m) ↔ a = k ∨ a ∈ keysA m := by
  induction m with
  | nil => simp [setA, keysA]
  | cons e rest ih =>
    by_cases h1 : k = e.1
    · subst h1
      simp only [setA, if_pos rfl]
      simp [keysA]
    · simp only [setA, if_neg h1]
      simp only [keysA, List.map_cons, List.mem_cons] at ih ⊢
      rw [ih]
      tauto

theorem lookupA_isSome_iff {β : Type} (k : Nat) (m : List (Nat × β)) :
    (lookupA k m).isSome ↔ k ∈ keysA m := by
  induction m with
  | nil => simp [lookupA, keysA]
  | cons e rest ih =>
    by_cases h : k = e.1
    · simp [lookupA, keysA, h]
    · simp [lookupA, keysA, h, ih]

theorem keysA_setA_of_mem {β : Type} (k : Nat) (v : β) (m : List (Nat × β))
    (h : k ∈ keysA m) : keysA (setA k v m) = keysA m := by
  induction m with
  | nil => simp [keysA] at h
  | cons e rest ih =>
    by_cases h1 : k = e.1
    · simp [setA, if_pos h1, keysA, h1]
    · have h2 : k ∈ keysA rest := by
        simp only [keysA, List.map_cons, List.mem_cons] at h
        tauto
      simp only [setA, if_neg h1, keysA, List.map_cons, List.cons.injEq, true_and]
      simpa [keysA] using ih h2

theorem nodup_keysA_setA {β : Type} (k : Nat) (v : β) (m : List (Nat × β))
    (h : (keysA m).Nodup) : (keysA (setA k v m)).Nodup := by
  induction m with
  | nil => simp [setA, keysA]
  | cons e rest ih =>
    simp only [keysA, List.map_cons, List.nodup_cons] at h
    by_cases h1 : k = e.1
    · subst h1
      simp only [setA, if_pos rfl]
      simpa [keysA, List.nodup_cons] using h
    · simp only [setA, if_neg h1, keysA, List.map_cons, List.nodup_cons]
      refine ⟨?_, ih h.2⟩
      intro hmem
      rcases (mem_keysA_setA e.1 k v rest).mp hmem with h2 | h2
      · exact h1 h2.symm
      · exact h.1 h2

theorem lookupA_mem {β : Type} (k : Nat) (v : β) (m : List (Nat × β))
    (h : lookupA k m = some v) : (k, v) ∈ m := by
  induction m with
  | nil => simp [lookupA] at h
  | cons e rest ih =>
    by_cases h1 : k = e.1
    · simp only [lookupA, if_pos h1, Option.some.injEq] at h
      subst h1
      subst h
      left
    · simp only [lookupA, if_neg h1] at h
      exact List.mem_cons_of_mem _ (ih h)

theorem mem_lookupA {β : Type} (k : Nat) (v : β) (m : List (Nat × β))
    (hnd : (keysA m).Nodup) : (k, v) ∈ m ↔ lookupA k m = some v := by
  constructor
  · intro h
    induction m with
    | nil => simp at h
    | cons e rest ih =>
      simp only [keysA, List.map_cons, List.nodup_cons] at hnd
      rcases List.mem_cons.mp h with h1 | h1
      · rw [← h1]
        simp [lookupA]
      · have hne : k ≠ e.1 := by
          intro hk
          exact hnd.1 (hk ▸ (List.mem_map.mpr ⟨(k, v), h1, rfl⟩))
        simp [lookupA, hne, ih hnd.2 h1]
  · exact lookupA_mem k v m

theorem mem_insertS (a d : Nat) (s : List Nat) :
    a ∈ insertS d s ↔ a = d ∨ a ∈ s := by
  unfold insertS
  by_cases h : d ∈ s
  · simp only [if_pos h]
    constructor
    · tauto
    · rintro (rfl | h2)
      · exact h
      · exact h2
  · simp [if_neg h, or_comm]

theorem insertS_of_mem (d : Nat) (s : List Nat) (h : d ∈ s) : insertS d s = s := by
  simp [insertS, h]

theorem nodup_insertS (d : Nat) (s : List Nat) (h : s.Nodup) : (insertS d s).Nodup := by
  unfold insertS
  by_cases hd : d ∈ s
  · simpa [hd]
  · simp [hd, List.nodup_append, h]

theorem mem_extendS (a : Nat) (l s : List Nat) :
    a ∈ extendS l s ↔ a ∈ s ∨ a ∈ l := by
  induction l generalizing s with
  | nil => simp [extendS]
  | cons x rest ih =>
    show a ∈ extendS rest (insertS x s) ↔ _
    rw [ih, mem_insertS]
    simp
    tauto

theorem nodup_extendS (l s : List Nat) (h : s.Nodup) : (extendS l s).Nodup := by
  induction l generalizing s with
  | nil => simpa [extendS]
  | cons x rest ih =>
    exact ih (insertS x s) (nodup_insertS x s h)

theorem extendS_of_subset (l s : List Nat) (h : ∀ e ∈ l, e ∈ s) : extendS l s = s := by
  induction l with
  | nil => rfl
  | cons x rest ih =>
    show extendS rest (insertS x s) = s
    rw [insertS_of_mem x s (h x (by simp))]
    exact ih (fun e he => h e (by simp [he]))

theorem lookupA_mapVal {β γ : Type} (p : Nat) (f : β → γ) (m : List (Nat × β)) :
    lookupA p (m.map (fun e => (e.1, f e.2))) = (lookupA p m).map f := by
  induction m with
  | nil => simp [lookupA]
  | cons e rest ih =>
    by_cases h : p = e.1
    · simp [lookupA, h]
    · simp [lookupA, h, ih]

theorem keysA_mapVal {β γ : Type} (f : β → γ) (m : List (Nat × β)) :
    keysA (m.map (fun e => (e.1, f e.2))) = keysA m := by
  induction m with
  | nil => rfl
  | cons e rest ih => simp [keysA] at ih ⊢

/-! ## Lemmas about the gossip-arm loops -/

theorem lookupA_foldl_set (v : DatumStatus) (l : List Nat) (pd : PeerTable) (d : Nat) :
    lookupA d (l.foldl (fun pd x => setA x v pd) pd)
      = if d ∈ l then some v else lookupA d pd := by
  induction l generalizing pd with
  | nil => simp
  | cons x rest ih =>
    show lookupA d (rest.foldl (fun pd x => setA x v pd) (setA x v pd)) = _
    rw [ih]
    by_cases h1 : d ∈ rest
    · simp [h1]
    · by_cases h2 : d = x
      · simp [h1, h2, lookupA_setA]
      · simp [h1, h2, lookupA_setA]

theorem mem_keysA_foldl_set (v : DatumStatus) (l : List Nat) (pd : PeerTable) (k : Nat) :
    k ∈ keysA (l.foldl (fun pd x => setA x v pd) pd) ↔ k ∈ l ∨ k ∈ keysA pd := by
  induction l generalizing pd with
  | nil => simp
  | cons x rest ih =>
    show k ∈ keysA (rest.foldl (fun pd x => setA x v pd) (setA x v pd)) ↔ _
    rw [ih]
    rw [mem_keysA_setA]
    simp
    tauto

theorem nodup_keysA_foldl_set (v : DatumStatus) (l : List Nat) (pd : PeerTable)
    (h : (keysA pd).Nodup) :
    (keysA (l.foldl (fun pd x => setA x v pd) pd)).Nodup := by
  induction l generalizing pd with
  | nil => simpa
  | cons x rest ih =>
    exact ih (setA x v pd) (nodup_keysA_setA x v pd h)

theorem confirmAll_master (l : List Nat) (pd pd' : PeerTable)
    (h : confirmAll pd l = some pd') (k : Nat) :
    (k ∈ l → lookupA k pd' = some DatumStatus.Confirmed)
      ∧ (k ∉ l → lookupA k pd' = lookupA k pd) := by
  induction l generalizing pd with
  | nil =>
    simp only [confirmAll, Option.some.injEq] at h
    subst h
    simp
  | cons d rest ih =>
    simp only [confirmAll] at h
    by_cases hd : (lookupA d pd).isSome
    · rw [if_pos hd] at h
      have := ih (setA d DatumStatus.Confirmed pd) h
      constructor
      · intro hk
        rcases List.mem_cons.mp hk with h1 | h1
        · by_cases h2 : k ∈ rest
          · exact this.1 h2
          · rw [this.2 h2, h1, lookupA_setA]
            simp
        · exact this.1 h1
      · intro hk
        have h1 : k ≠ d := fun hh => hk (hh ▸ List.mem_cons_self d rest)
        have h2 : k ∉ rest := fun hh => hk (List.mem_cons_of_mem d hh)
        rw [this.2 h2, lookupA_setA, if_neg h1]
    · rw [if_neg hd] at h
      exact absurd h (by simp)

theorem confirmAll_keysA (l : List Nat) (pd pd' : PeerTable)
    (h : confirmAll pd l = some pd') : keysA pd' = keysA pd := by
  induction l generalizing pd with
  | nil =>
    simp only [confirmAll, Option.some.injEq] at h
    subst h
    rfl
  | cons d rest ih =>
    simp only [confirmAll] at h
    by_cases hd : (lookupA d pd).isSome
    · rw [if_pos hd] at h
      rw [ih (setA d DatumStatus.Confirmed pd) h]
      exact keysA_setA_of_mem d _ pd ((lookupA_isSome_iff d pd).mp hd)
    · rw [if_neg hd] at h
      exact absurd h (by simp)

theorem confirmAll_isSome (l : List Nat) (pd : PeerTable)
    (h : ∀ d ∈ l, (lookupA d pd).isSome) : (confirmAll pd l).isSome := by
  induction l generalizing pd with
  | nil => simp [confirmAll]
  | cons d rest ih =>
    have hd : (lookupA d pd).isSome := h d (List.mem_cons_self d rest)
    simp only [confirmAll, if_pos hd]
    refine ih (setA d DatumStatus.Confirmed pd) ?_
    intro e he
    rw [lookupA_setA]
    by_cases h2 : e = d
    · simp [h2]
    · simpa [h2] using h e (List.mem_cons_of_mem d he)

theorem confirmAll_eq_none (l : List Nat) (pd : PeerTable) (d : Nat)
    (hd : d ∈ l) (hnone : lookupA d pd = none) : confirmAll pd l = none := by
  induction l generalizing pd with
  | nil => simp at hd
  | cons x rest ih =>
    rcases List.mem_cons.mp hd with h1 | h1
    · subst h1
      simp [confirmAll, hnone]
    · simp only [confirmAll]
      by_cases hx : (lookupA x pd).isSome
      · rw [if_pos hx]
        refine ih (setA x DatumStatus.Confirmed pd) h1 ?_
        rw [lookupA_setA]
        have hne : d ≠ x := by
          intro hh
          rw [← hh, hnone] at hx
          simp at hx
        simp [hne, hnone]
      · rw [if_neg hx]

theorem backfillPeer_lookup (seen : List Datum) (pd : PeerTable) (d : Nat) :
    lookupA d (backfillPeer seen pd)
      = match lookupA d pd with
        | some s => some s
        | none => if d ∈ seen then some DatumStatus.SentUnconfirmed else none := by
  induction seen generalizing pd with
  | nil =>
    cases h : lookupA d pd <;> simp [backfillPeer, h]
  | cons x rest ih =>
    show lookupA d (backfillPeer rest
        (if (lookupA x pd).isSome then pd else setA x DatumStatus.SentUnconfirmed pd)) = _
    by_cases hx : (lookupA x pd).isSome
    · rw [if_pos hx, ih]
      cases h : lookupA d pd with
      | some s => simp
      | none =>
        by_cases h2 : d = x
        · rw [← h2, h] at hx
          simp at hx
        · simp [h2]
    · rw [if_neg hx, ih]
      by_cases h2 : d = x
      · subst h2
        rw [lookupA_setA, if_pos rfl]
        cases h : lookupA d pd with
        | some s =>
          rw [h] at hx
          simp at hx
        | none => simp
      · rw [lookupA_setA, if_neg h2]
        cases h : lookupA d pd with
        | some s => simp
        | none => simp [h2]

theorem nodup_keysA_backfillPeer (seen : List Datum) (pd : PeerTable)
    (h : (keysA pd).Nodup) : (keysA (backfillPeer seen pd)).Nodup := by
  induction seen generalizing pd with
  | nil => simpa [backfillPeer]
  | cons x rest ih =>
    show (keysA (backfillPeer rest
        (if (lookupA x pd).isSome then pd else setA x DatumStatus.SentUnconfirmed pd))).Nodup
    by_cases hx : (lookupA x pd).isSome
    · rw [if_pos hx]
      exact ih pd h
    · rw [if_neg hx]
      exact ih _ (nodup_keysA_setA x _ pd h)

theorem mem_statusList (pd : PeerTable) (hnd : (keysA pd).Nodup) (d : Nat) (s0 : DatumStatus) :
    d ∈ (pd.filter (fun q => decide (q.2 = s0))).map Prod.fst ↔ lookupA d pd = some s0 := by
  rw [← mem_lookupA d s0 pd hnd]
  constructor
  · intro h
    rcases List.mem_map.mp h with ⟨q, hq, hq1⟩
    rcases List.mem_filter.mp hq with ⟨hq2, hq3⟩
    have : q = (d, s0) := by
      ext
      · exact hq1
      · simpa using hq3
    exact this ▸ hq2
  · intro h
    exact List.mem_map.mpr ⟨(d, s0), List.mem_filter.mpr ⟨h, by simp⟩, rfl⟩

/-! ## Graph lemmas for the 25-node topology -/

theorem any_ext (l : List Nat) (p q : Nat → Bool) (h : ∀ x ∈ l, p x = q x) :
    l.any p = l.any q := by
  induction l with
  | nil => rfl
  | cons x rest ih =>
    simp only [List.any_cons]
    rw [h x (List.mem_cons_self x rest), ih (fun y hy => h y (List.mem_cons_of_mem x hy))]

theorem filter_ext (l : List Nat) (p q : Nat → Bool) (h : ∀ x ∈ l, p x = q x) :
    l.filter p = l.filter q := by
  induction l with
  | nil => rfl
  | cons x rest ih =>
    simp only [List.filter_cons]
    rw [h x (List.mem_cons_self x rest), ih (fun y hy => h y (List.mem_cons_of_mem x hy))]

theorem stepU_ext (f g : Nat → Nat → Bool)
    (hfg : ∀ a ∈ List.range 25, ∀ b ∈ List.range 25, f a b = g a b)
    (fr : List Nat) (hfr : ∀ x ∈ fr, x < 25) : stepU f fr = stepU g fr := by
  unfold stepU
  apply filter_ext
  intro b hb
  congr 1
  exact any_ext fr _ _
    (fun x hx => hfg x (List.mem_range.mpr (hfr x hx)) b hb)

theorem stepU_bound (f : Nat → Nat → Bool) (fr : List Nat) :
    ∀ x ∈ stepU f fr, x < 25 := by
  intro x hx
  exact List.mem_range.mp (List.mem_filter.mp hx).1

theorem ballU_ext (f g : Nat → Nat → Bool)
    (hfg : ∀ a ∈ List.range 25, ∀ b ∈ List.range 25, f a b = g a b) :
    ∀ (k : Nat) (fr : List Nat), (∀ x ∈ fr, x < 25) → ballU f k fr = ballU g k fr := by
  intro k
  induction k with
  | zero => intro fr _; rfl
  | succ k ih =>
    intro fr hfr
    show ballU f k (stepU f fr) = ballU g k (stepU g fr)
    rw [stepU_ext f g hfg fr hfr]
    exact ih (stepU g fr) (stepU_bound g fr)

theorem adj_points : ∀ a ∈ List.range 25, ∀ b ∈ List.range 25, adjU a b = adjT a b := by
  decide

theorem adjCut_points :
    ∀ a ∈ List.range 25, ∀ b ∈ List.range 25, adjCut a b = adjTCut a b := by
  intro a ha b hb
  simp only [adjCut, adjTCut, adj_points a ha b hb]

theorem tab_diam4 : ∀ a ∈ List.range 25, ∀ b ∈ List.range 25, b ∈ ballU adjT 4 [a] := by
  decide

/-! ## Remaining helper lemmas -/

theorem mem_newGossipData (n : BroadcastNode) (dyn : List Datum) (d : Nat) :
    d ∈ newGossipData n dyn ↔ d ∈ dyn ∧ d ∉ n.seen_data := by
  simp [newGossipData, List.mem_filter]

theorem gossipPd1_lookup (n : BroadcastNode) (src : Nat) (dyn : List Datum) (d : Nat) :
    lookupA d (gossipPd1 n src dyn)
      = if d ∈ newGossipData n dyn then some DatumStatus.ReceivedUnconfirmed
        else lookupA d ((lookupA src n.peer_data).getD []) :=
  lookupA_foldl_set DatumStatus.ReceivedUnconfirmed (newGossipData n dyn)
    ((lookupA src n.peer_data).getD []) d

theorem mem_setA {β : Type} (k : Nat) (v : β) (m : List (Nat × β)) (e : Nat × β)
    (h : e ∈ setA k v m) : e = (k, v) ∨ e ∈ m := by
  induction m with
  | nil => simpa [setA] using h
  | cons x rest ih =>
    by_cases h1 : k = x.1
    · rw [setA, if_pos h1] at h
      rcases List.mem_cons.mp h with h2 | h2
      · exact Or.inl h2
      · exact Or.inr (List.mem_cons_of_mem x h2)
    · rw [setA, if_neg h1] at h
      rcases List.mem_cons.mp h with h2 | h2
      · exact Or.inr (h2 ▸ List.mem_cons_self x rest)
      · rcases ih h2 with h3 | h3
        · exact Or.inl h3
        · exact Or.inr (List.mem_cons_of_mem x h3)

theorem mem_keysA {β : Type} (k : Nat) (m : List (Nat × β)) :
    k ∈ keysA m ↔ ∃ v, (k, v) ∈ m := by
  constructor
  · intro h
    rcases List.mem_map.mp h with ⟨e, he, hk⟩
    exact ⟨e.2, by rwa [show (k, e.2) = e by rw [← hk]]⟩
  · rintro ⟨v, hv⟩
    exact List.mem_map.mpr ⟨(k, v), hv, rfl⟩

theorem mem_keysA_backfillPeer (seen : List Datum) (pd : PeerTable) (k : Nat) :
    k ∈ keysA (backfillPeer seen pd) ↔ k ∈ keysA pd ∨ k ∈ seen := by
  rw [← lookupA_isSome_iff, ← lookupA_isSome_iff, backfillPeer_lookup]
  cases h : lookupA k pd with
  | some s => simp
  | none =>
    by_cases h2 : k ∈ seen <;> simp [h2]

/-- Peer-set membership for the startup topology: `o` ends up in the key
set of `buildPeers self roster` exactly when it is in the roster and the
code's peer condition holds. -/
theorem mem_keysA_buildPeersAux (s : Nat) (roster : List Nat)
    (acc : List (Nat × PeerTable)) (o : Nat) :
    o ∈ keysA (roster.foldl
        (fun acc x => if peerCond s x then setA x [] acc else acc) acc)
      ↔ (o ∈ roster ∧ peerCond s o) ∨ o ∈ keysA acc := by
  induction roster generalizing acc with
  | nil => simp
  | cons x rest ih =>
    show o ∈ keysA (rest.foldl _ (if peerCond s x then setA x [] acc else acc)) ↔ _
    rw [ih]
    by_cases hc : peerCond s x
    · rw [if_pos hc, mem_keysA_setA]
      constructor
      · rintro (⟨h1, h2⟩ | h1 | h1)
        · exact Or.inl ⟨List.mem_cons_of_mem x h1, h2⟩
        · exact Or.inl ⟨h1 ▸ List.mem_cons_self x rest, h1 ▸ hc⟩
        · exact Or.inr h1
      · rintro (⟨h1, h2⟩ | h1)
        · rcases List.mem_cons.mp h1 with h3 | h3
          · exact Or.inr (Or.inl h3)
          · exact Or.inl ⟨h3, h2⟩
        · exact Or.inr (Or.inr h1)
    · rw [if_neg hc]
      constructor
      · rintro (⟨h1, h2⟩ | h1)
        · exact Or.inl ⟨List.mem_cons_of_mem x h1, h2⟩
        · exact Or.inr h1
      · rintro (⟨h1, h2⟩ | h1)
        · rcases List.mem_cons.mp h1 with h3 | h3
          · exact absurd (h3 ▸ h2) hc
          · exact Or.inl ⟨h3, h2⟩
        · exact Or.inr h1

theorem mem_peerKeys (s : Nat) (roster : List Nat) (o : Nat) :
    o ∈ peerKeys s roster ↔ o ∈ roster ∧ peerCond s o := by
  have h := mem_keysA_buildPeersAux s roster [] o
  simpa [peerKeys, buildPeers, keysA] using h

/-! ## Claim theorems: topology -/

/-- C5 counterexample: over the roster n0..n24, trunk node n0's PeerSet as
built by `BroadcastNode::new` contains n0 itself, which the claimed set
(branches of the group plus the two ring trunks, nothing else) excludes. -/
theorem trunk_self_cex :
    0 ∈ peerKeys 0 roster25 ∧ 0 ∉ claimedTrunkPeers 0 roster25 := by
  decide

/-- C5 (amended): for every roster and trunk node `t` (ordinal below the
group count 5), the startup PeerSet is exactly the roster members of `t`'s
own group — its branch nodes AND the trunk itself — plus the two adjacent
ring trunks `(t+1) % 5` and `(t+4) % 5`, and nothing else. -/
theorem trunk_peer_set (roster : List Nat) (t : Nat) (ht : t < 5)
    (_hself : t ∈ roster) (o : Nat) :
    o ∈ peerKeys t roster ↔
      o ∈ roster ∧ ((5 ≤ o ∧ o % 5 = t) ∨ o = t ∨ o = (t + 1) % 5 ∨ o = (t + 4) % 5) := by
  rw [mem_peerKeys]
  have hc : peerCond t o ↔
      (o % 5 = t % 5 ∨ o = (5 + t + 1) % 5 ∨ o = (5 + t - 1) % 5) := by
    simp only [peerCond, node_group, N_GROUPS, if_pos ht]
  rw [hc]
  constructor
  · rintro ⟨h1, h2⟩
    exact ⟨h1, by omega⟩
  · rintro ⟨h1, h2⟩
    exact ⟨h1, by omega⟩

/-- C5 witness: instantiating the amended claim at trunk n0 over the
25-node roster shows branch n5 is a peer. -/
theorem trunk_peer_set_witness : 5 ∈ peerKeys 0 roster25 :=
  (trunk_peer_set roster25 0 (by decide) (by decide) 5).mpr (by decide)

/-- C6 counterexample: node n7's PeerSet over the 25-node roster contains
no cross-group branch partner at all — its only branch peer, n12, lies in
n7's own group (12 % 5 = 7 % 5 = 2) — where the claim demands exactly one
cross-group branch partner. -/
theorem branch7_cross_group_cex :
    (peerKeys 7 roster25).filter (fun o => decide (5 ≤ o) && decide (¬ o % 5 = 7 % 5)) = []
      ∧ peerKeys 7 roster25 = [2, 12] := by
  decide

/-- C6 (amended): the topology builder is a pure function, so identical
inputs yield identical PeerSets; for the 25-node roster, branch node n7
(group 2) peers with exactly its trunk n2 and exactly one other branch
node, n12 — which lies in n7's own group, offset by the group count in
ordinal space — never more, never fewer (a PeerSet of size exactly 2). -/
theorem branch7_peer_set :
    peerKeys 7 roster25 = [2, 12]
      ∧ (peerKeys 7 roster25).length = 2
      ∧ (2 : Nat) = 7 % 5
      ∧ 2 < 5
      ∧ 5 ≤ 12
      ∧ 12 % 5 = 7 % 5 := by
  decide

/-- C9 counterexample: remove the two edges 0-1 and 0-15 from the 25-node
peer graph (`adjCut`).  Nodes n15 and n6 are still connected (they are 7
hops apart) but not within 6 hops, so the diameter exceeds 6 after
removing two edges. -/
theorem diameter_cut_cex :
    ¬ 6 ∈ ballU adjCut 6 [15] ∧ 6 ∈ ballU adjCut 7 [15] := by
  have hb : ∀ x ∈ [15], x < 25 := by
    intro x hx
    rw [List.mem_singleton.mp hx]
    omega
  have h6 : ballU adjCut 6 [15] = ballU adjTCut 6 [15] :=
    ballU_ext adjCut adjTCut adjCut_points 6 [15] hb
  have h7 : ballU adjCut 7 [15] = ballU adjTCut 7 [15] :=
    ballU_ext adjCut adjTCut adjCut_points 7 [15] hb
  constructor
  · rw [h6]
    decide
  · rw [h7]
    decide

/-- C9 (amended): with no edges removed, every pair of nodes of the
25-node peer graph is within 4 hops (diameter at most 4). -/
theorem diameter_four (a b : Nat) (ha : a < 25) (hb : b < 25) :
    b ∈ ballU adjU 4 [a] := by
  have heq : ballU adjU 4 [a] = ballU adjT 4 [a] := by
    refine ballU_ext adjU adjT adj_points 4 [a] ?_
    intro x hx
    rw [List.mem_singleton.mp hx]
    exact ha
  rw [heq]
  exact tab_diam4 a (List.mem_range.mpr ha) b (List.mem_range.mpr hb)

/-- C9 witness: branch n18 is within 4 hops of branch n7. -/
theorem diameter_four_witness : 18 ∈ ballU adjU 4 [7] :=
  diameter_four 7 18 (by decide) (by decide)

/-! ## Claim theorems: event handling -/

/-- C1 counterexample: handling a gossip message from n3 — a node that is
not in n7's startup PeerSet — adds key 3 to the peer table, so the key set
no longer equals the key set computed at startup. -/
theorem peer_keys_new_src_cex :
    (step (initNode 7 roster25) (Event.msg 3 (BroadcastMessages.Gossip [] []))).map
        (fun m => keysA m.peer_data) = some [2, 12, 3]
      ∧ keysA (initNode 7 roster25).peer_data = [2, 12]
      ∧ ([2, 12, 3] : List Nat) ≠ [2, 12] := by
  decide

/-- C1 (amended): handling any broadcast, read or topology message, any
reply, and any gossip tick leaves the key set of the peer table unchanged,
and no event ever removes a key; handling a gossip message also leaves the
key set unchanged provided its source is already a tracked peer (as it
always is when gossip comes only from peers, the protocol's intent) — an
untracked source is the only way the key set can change, by gaining that
source. -/
theorem peer_keys_fixed (n : BroadcastNode) (e : Event) (n' : BroadcastNode)
    (hstep : step n e = some n') :
    (∀ p, p ∈ keysA n.peer_data → p ∈ keysA n'.peer_data)
      ∧ ((∀ src dyn dirfy, e = Event.msg src (BroadcastMessages.Gossip dyn dirfy) →
            src ∈ keysA n.peer_data) →
          keysA n'.peer_data = keysA n.peer_data) := by
  cases e with
  | tick =>
    simp only [step, Option.some.injEq] at hstep
    subst hstep
    have hkeys : keysA (bg_task n).1.peer_data = keysA n.peer_data :=
      keysA_mapVal (backfillPeer n.seen_data) n.peer_data
    constructor
    · intro p hp
      rw [hkeys]
      exact hp
    · intro _
      exact hkeys
  | msg src m =>
    cases m with
    | Broadcast d =>
      simp only [step, handle_msg, Option.some.injEq] at hstep
      subst hstep
      exact ⟨fun p hp => hp, fun _ => rfl⟩
    | Read =>
      simp only [step, handle_msg, Option.some.injEq] at hstep
      subst hstep
      exact ⟨fun p hp => hp, fun _ => rfl⟩
    | Topology tp =>
      simp only [step, handle_msg, Option.some.injEq] at hstep
      subst hstep
      exact ⟨fun p hp => hp, fun _ => rfl⟩
    | BroadcastOk =>
      simp only [step, handle_msg, Option.some.injEq] at hstep
      subst hstep
      exact ⟨fun p hp => hp, fun _ => rfl⟩
    | ReadOk ms =>
      simp only [step, handle_msg, Option.some.injEq] at hstep
      subst hstep
      exact ⟨fun p hp => hp, fun _ => rfl⟩
    | TopologyOk =>
      simp only [step, handle_msg, Option.some.injEq] at hstep
      subst hstep
      exact ⟨fun p hp => hp, fun _ => rfl⟩
    | Gossip dyn dirfy =>
      simp only [step, handle_msg, recordGossip] at hstep
      cases hconf : confirmAll (gossipPd1 n src dyn) dirfy with
      | none =>
        rw [hconf] at hstep
        simp at hstep
      | some pd2 =>
        rw [hconf] at hstep
        simp only [Option.some.injEq] at hstep
        subst hstep
        constructor
        · intro p hp
          show p ∈ keysA (setA src pd2 n.peer_data)
          rw [mem_keysA_setA]
          exact Or.inr hp
        · intro hsrc
          show keysA (setA src pd2 n.peer_data) = keysA n.peer_data
          exact keysA_setA_of_mem src pd2 n.peer_data (hsrc src dyn dirfy rfl)

/-- C1 witness: a gossip from tracked peer n2 leaves n7's startup key set
unchanged. -/
theorem peer_keys_fixed_witness :
    (∀ p, p ∈ keysA (initNode 7 roster25).peer_data →
        p ∈ keysA (initNode 7 roster25).peer_data)
      ∧ ((∀ src dyn dirfy,
            Event.msg 2 (BroadcastMessages.Gossip [] [])
              = Event.msg src (BroadcastMessages.Gossip dyn dirfy) →
            src ∈ keysA (initNode 7 roster25).peer_data) →
          keysA (initNode 7 roster25).peer_data = keysA (initNode 7 roster25).peer_data) :=
  peer_keys_fixed (initNode 7 roster25) (Event.msg 2 (BroadcastMessages.Gossip [] []))
    (initNode 7 roster25) (by decide)

/-- C2: handling a gossip message panics exactly on a missing confirmation
entry — if some datum of `data_i_received_from_you` has no entry in the
source's table after the `data_you_need` step, the handler panics; if every
such datum has an entry, handling completes and each of those entries ends
`Confirmed`. -/
theorem gossip_confirmation (n : BroadcastNode) (src : Nat) (dyn dirfy : List Datum) :
    ((∃ d ∈ dirfy, lookupA d (gossipPd1 n src dyn) = none) →
        recordGossip n src dyn dirfy = none)
      ∧ ((∀ d ∈ dirfy, (lookupA d (gossipPd1 n src dyn)).isSome) →
          ∃ n', recordGossip n src dyn dirfy = some n'
            ∧ ∀ d ∈ dirfy, lookupPD n' src d = some DatumStatus.Confirmed) := by
  constructor
  · rintro ⟨d, hd, hnone⟩
    unfold recordGossip
    rw [confirmAll_eq_none dirfy _ d hd hnone]
  · intro hall
    rcases Option.isSome_iff_exists.mp
        (confirmAll_isSome dirfy (gossipPd1 n src dyn) hall) with ⟨pd2, hpd2⟩
    refine ⟨{ n with
        seen_data := extendS (newGossipData n dyn) n.seen_data,
        peer_data := setA src pd2 n.peer_data }, ?_, ?_⟩
    · unfold recordGossip
      rw [hpd2]
    · intro d hd
      unfold lookupPD
      have hsrc : lookupA src (setA src pd2 n.peer_data) = some pd2 := by
        rw [lookupA_setA]
        simp
      rw [hsrc]
      simpa using (confirmAll_master dirfy _ pd2 hpd2 d).1 hd

/-- C2 witness: a confirmation for an untracked datum (gossip from n9,
which n7 does not track) panics; a confirmation for the tracked datum 41
from n2 completes and confirms it. -/
theorem gossip_confirmation_witness :
    recordGossip wNode2 9 [] [41] = none
      ∧ ∃ n', recordGossip wNode2 2 [] [41] = some n'
          ∧ ∀ d ∈ [41], lookupPD n' 2 d = some DatumStatus.Confirmed :=
  ⟨(gossip_confirmation wNode2 9 [] [41]).1 ⟨41, by decide, by decide⟩,
   (gossip_confirmation wNode2 2 [] [41]).2 (by decide)⟩

/-- C4 counterexample: datum 41 is unseen and appears in both
`data_you_need` and `data_i_received_from_you` of the same gossip from n2;
handling succeeds but the entry's final status is `Confirmed`, where the
claim demands `ReceivedUnconfirmed`. -/
theorem gossip_learning_cex :
    (recordGossip (initNode 7 roster25) 2 [41] [41]).map (fun m => lookupPD m 2 41)
        = some (some DatumStatus.Confirmed)
      ∧ DatumStatus.Confirmed ≠ DatumStatus.ReceivedUnconfirmed := by
  decide

/-- C4 (amended): whenever handling a gossip message from peer `p`
completes, SeenSet gains exactly the datums of `data_you_need` not already
in it; each such newly learned datum not also listed in
`data_i_received_from_you` gets table status `ReceivedUnconfirmed` at `p`,
and a datum of `data_you_need` already in SeenSet and not listed in
`data_i_received_from_you` leaves both SeenSet and its entry at `p`
unchanged. -/
theorem gossip_learning (n : BroadcastNode) (src : Nat) (dyn dirfy : List Datum)
    (n' : BroadcastNode) (h : recordGossip n src dyn dirfy = some n') :
    (∀ d, d ∈ n'.seen_data ↔ d ∈ n.seen_data ∨ d ∈ dyn)
      ∧ (∀ d, d ∈ dyn → d ∉ n.seen_data → d ∉ dirfy →
          lookupPD n' src d = some DatumStatus.ReceivedUnconfirmed)
      ∧ (∀ d, d ∈ dyn → d ∈ n.seen_data → d ∉ dirfy →
          lookupPD n' src d = lookupPD n src d) := by
  unfold recordGossip at h
  cases hconf : confirmAll (gossipPd1 n src dyn) dirfy with
  | none =>
    rw [hconf] at h
    simp at h
  | some pd2 =>
    rw [hconf] at h
    simp only [Option.some.injEq] at h
    subst h
    refine ⟨?_, ?_, ?_⟩
    · intro d
      show d ∈ extendS (newGossipData n dyn) n.seen_data ↔ _
      rw [mem_extendS, mem_newGossipData]
      tauto
    · intro d hdyn hseen hdirfy
      unfold lookupPD
      have hsrc : lookupA src (setA src pd2 n.peer_data) = some pd2 := by
        rw [lookupA_setA]
        simp
      rw [hsrc]
      have h1 := (confirmAll_master dirfy _ pd2 hconf d).2 hdirfy
      have h2 : d ∈ newGossipData n dyn := (mem_newGossipData n dyn d).mpr ⟨hdyn, hseen⟩
      simp only [Option.some_bind]
      rw [h1, gossipPd1_lookup, if_pos h2]
    · intro d hdyn hseen hdirfy
      unfold lookupPD
      have hsrc : lookupA src (setA src pd2 n.peer_data) = some pd2 := by
        rw [lookupA_setA]
        simp
      rw [hsrc]
      have h1 := (confirmAll_master dirfy _ pd2 hconf d).2 hdirfy
      have h2 : d ∉ newGossipData n dyn := by
        rw [mem_newGossipData]
        tauto
      simp only [Option.some_bind]
      rw [h1, gossipPd1_lookup, if_neg h2]
      cases hpx : lookupA src n.peer_data with
      | none => simp [hpx, lookupA]
      | some pdx => simp [hpx]

/-- C4 witness: n7 learns datum 5 from n2 (5 unseen, not confirmed in the
same message), ending with a `ReceivedUnconfirmed` entry, while datum 41
(already seen) leaves SeenSet and entries unchanged. -/
theorem gossip_learning_witness :
    (∀ d, d ∈ wNode2G.seen_data ↔ d ∈ wNode2.seen_data ∨ d ∈ [5, 41])
      ∧ (∀ d, d ∈ [5, 41] → d ∉ wNode2.seen_data → d ∉ ([] : List Datum) →
          lookupPD wNode2G 2 d = some DatumStatus.ReceivedUnconfirmed)
      ∧ (∀ d, d ∈ [5, 41] → d ∈ wNode2.seen_data → d ∉ ([] : List Datum) →
          lookupPD wNode2G 2 d = lookupPD wNode2 2 d) :=
  gossip_learning wNode2 2 [5, 41] [] wNode2G (by decide)

/-- C8: recording already-known data is idempotent for SeenSet — a
broadcast of a seen datum and a gossip whose `data_you_need` is all seen
leave `seen_data` unchanged, and neither operation ever introduces
duplicates. -/
theorem record_idempotent (n : BroadcastNode) (src d : Nat) (dyn dirfy : List Datum)
    (nb ng : BroadcastNode)
    (hb : handle_msg n src (BroadcastMessages.Broadcast d) = some nb)
    (hg : recordGossip n src dyn dirfy = some ng) :
    (d ∈ n.seen_data → nb.seen_data = n.seen_data)
      ∧ ((∀ e ∈ dyn, e ∈ n.seen_data) → ng.seen_data = n.seen_data)
      ∧ (n.seen_data.Nodup → nb.seen_data.Nodup ∧ ng.seen_data.Nodup) := by
  simp only [handle_msg, Option.some.injEq] at hb
  subst hb
  unfold recordGossip at hg
  cases hconf : confirmAll (gossipPd1 n src dyn) dirfy with
  | none =>
    rw [hconf] at hg
    simp at hg
  | some pd2 =>
    rw [hconf] at hg
    simp only [Option.some.injEq] at hg
    subst hg
    refine ⟨?_, ?_, ?_⟩
    · intro hd
      exact insertS_of_mem d n.seen_data hd
    · intro hall
      refine extendS_of_subset _ _ ?_
      intro e he
      exact hall e ((mem_newGossipData n dyn e).mp he).1
    · intro hnd
      exact ⟨nodup_insertS d n.seen_data hnd, nodup_extendS _ n.seen_data hnd⟩

/-- C8 witness: broadcasting the already-seen datum 41 and gossiping
`data_you_need = [41]` to a node that has seen 41 leave SeenSet equal to
`[41]`, with no duplicates. -/
theorem record_idempotent_witness :
    (41 ∈ wNode2.seen_data → wNode2B.seen_data = wNode2.seen_data)
      ∧ ((∀ e ∈ [41], e ∈ wNode2.seen_data) → wNode2.seen_data = wNode2.seen_data)
      ∧ (wNode2.seen_data.Nodup → wNode2B.seen_data.Nodup ∧ wNode2.seen_data.Nodup) :=
  record_idempotent wNode2 2 41 [41] [] wNode2B wNode2 (by decide) (by decide)

/-- C10: a datum `d` outside SeenSet listed in both `data_you_need` and
`data_i_received_from_you` of one gossip message never trips the fatal
missing-entry branch: the `data_you_need` loop creates the (source, d)
entry (as `ReceivedUnconfirmed`) before the confirmation loop reads it, a
panic can only be due to some other datum, and when handling completes `d`
is in SeenSet with final status `Confirmed`. -/
theorem gossip_overlap_safe (n : BroadcastNode) (src : Nat) (dyn dirfy : List Datum)
    (d : Nat) (h1 : d ∉ n.seen_data) (h2 : d ∈ dyn) (h3 : d ∈ dirfy) :
    lookupA d (gossipPd1 n src dyn) = some DatumStatus.ReceivedUnconfirmed
      ∧ (recordGossip n src dyn dirfy = none →
          ∃ e ∈ dirfy, e ≠ d ∧ lookupA e (gossipPd1 n src dyn) = none)
      ∧ (∀ n', recordGossip n src dyn dirfy = some n' →
          d ∈ n'.seen_data ∧ lookupPD n' src d = some DatumStatus.Confirmed) := by
  have hmem : d ∈ newGossipData n dyn := (mem_newGossipData n dyn d).mpr ⟨h2, h1⟩
  have hlook : lookupA d (gossipPd1 n src dyn) = some DatumStatus.ReceivedUnconfirmed := by
    rw [gossipPd1_lookup, if_pos hmem]
  refine ⟨hlook, ?_, ?_⟩
  · intro hnone
    unfold recordGossip at hnone
    cases hconf : confirmAll (gossipPd1 n src dyn) dirfy with
    | some pd2 =>
      rw [hconf] at hnone
      simp at hnone
    | none =>
      by_cases hexists : ∀ e ∈ dirfy, (lookupA e (gossipPd1 n src dyn)).isSome
      · have := confirmAll_isSome dirfy (gossipPd1 n src dyn) hexists
        rw [hconf] at this
        simp at this
      · push_neg at hexists
        rcases hexists with ⟨e, he, hne⟩
        refine ⟨e, he, ?_, ?_⟩
        · intro heq
          rw [heq, hlook] at hne
          simp at hne
        · simpa using hne
  · intro n' hsome
    unfold recordGossip at hsome
    cases hconf : confirmAll (gossipPd1 n src dyn) dirfy with
    | none =>
      rw [hconf] at hsome
      simp at hsome
    | some pd2 =>
      rw [hconf] at hsome
      simp only [Option.some.injEq] at hsome
      subst hsome
      constructor
      · show d ∈ extendS (newGossipData n dyn) n.seen_data
        rw [mem_extendS]
        exact Or.inr hmem
      · unfold lookupPD
        have hsrc : lookupA src (setA src pd2 n.peer_data) = some pd2 := by
          rw [lookupA_setA]
          simp
        rw [hsrc]
        simpa using (confirmAll_master dirfy _ pd2 hconf d).1 h3

/-- C10 witness: datum 41, unseen by fresh n7 and listed in both sets of a
gossip from n2, ends seen and `Confirmed` without a panic. -/
theorem gossip_overlap_safe_witness :
    lookupA 41 (gossipPd1 (initNode 7 roster25) 2 [41])
        = some DatumStatus.ReceivedUnconfirmed
      ∧ (recordGossip (initNode 7 roster25) 2 [41] [41] = none →
          ∃ e ∈ [41], e ≠ 41 ∧ lookupA e (gossipPd1 (initNode 7 roster25) 2 [41]) = none)
      ∧ (∀ n', recordGossip (initNode 7 roster25) 2 [41] [41] = some n' →
          41 ∈ n'.seen_data ∧ lookupPD n' 2 41 = some DatumStatus.Confirmed) :=
  gossip_overlap_safe (initNode 7 roster25) 2 [41] [41] 41 (by decide) (by decide) (by decide)

/-- C7: once a (peer, datum) entry is `Confirmed` it stays `Confirmed`
under every event — any broadcast, read, topology or gossip message and
any gossip tick — given the reachability invariant that tracked entries
concern seen data (`EntriesSeen`). -/
theorem confirmed_stays (n : BroadcastNode) (e : Event) (n' : BroadcastNode)
    (hES : EntriesSeen n) (hstep : step n e = some n') (p d : Nat)
    (hc : lookupPD n p d = some DatumStatus.Confirmed) :
    lookupPD n' p d = some DatumStatus.Confirmed := by
  unfold lookupPD at hc
  cases hpd : lookupA p n.peer_data with
  | none =>
    rw [hpd] at hc
    simp at hc
  | some pdp =>
    rw [hpd] at hc
    simp only [Option.some_bind] at hc
    cases e with
    | tick =>
      simp only [step, Option.some.injEq] at hstep
      subst hstep
      have hb : lookupA p (bgBackfill n)
          = (lookupA p n.peer_data).map (backfillPeer n.seen_data) :=
        lookupA_mapVal p (backfillPeer n.seen_data) n.peer_data
      show (lookupA p (bgBackfill n)).bind (fun pd => lookupA d pd) = _
      rw [hb, hpd]
      show lookupA d (backfillPeer n.seen_data pdp) = _
      rw [backfillPeer_lookup, hc]
    | msg src m =>
      cases m with
      | Broadcast dd =>
        simp only [step, handle_msg, Option.some.injEq] at hstep
        subst hstep
        show (lookupA p n.peer_data).bind (fun pd => lookupA d pd) = _
        rw [hpd]
        simpa using hc
      | Read =>
        simp only [step, handle_msg, Option.some.injEq] at hstep
        subst hstep
        show (lookupA p n.peer_data).bind (fun pd => lookupA d pd) = _
        rw [hpd]
        simpa using hc
      | Topology tp =>
        simp only [step, handle_msg, Option.some.injEq] at hstep
        subst hstep
        show (lookupA p n.peer_data).bind (fun pd => lookupA d pd) = _
        rw [hpd]
        simpa using hc
      | BroadcastOk =>
        simp only [step, handle_msg, Option.some.injEq] at hstep
        subst hstep
        show (lookupA p n.peer_data).bind (fun pd => lookupA d pd) = _
        rw [hpd]
        simpa using hc
      | ReadOk ms =>
        simp only [step, handle_msg, Option.some.injEq] at hstep
        subst hstep
        show (lookupA p n.peer_data).bind (fun pd => lookupA d pd) = _
        rw [hpd]
        simpa using hc
      | TopologyOk =>
        simp only [step, handle_msg, Option.some.injEq] at hstep
        subst hstep
        show (lookupA p n.peer_data).bind (fun pd => lookupA d pd) = _
        rw [hpd]
        simpa using hc
      | Gossip dyn dirfy =>
        simp only [step, handle_msg, recordGossip] at hstep
        cases hconf : confirmAll (gossipPd1 n src dyn) dirfy with
        | none =>
          rw [hconf] at hstep
          simp at hstep
        | some pd2 =>
          rw [hconf] at hstep
          simp only [Option.some.injEq] at hstep
          subst hstep
          have hdseen : d ∈ n.seen_data :=
            hES (p, pdp) (lookupA_mem p pdp n.peer_data hpd)
              (d, DatumStatus.Confirmed) (lookupA_mem d _ pdp hc)
          by_cases hps : p = src
          · subst hps
            have hsrc2 : lookupA p (setA p pd2 n.peer_data) = some pd2 := by
              rw [lookupA_setA]
              simp
            show (lookupA p (setA p pd2 n.peer_data)).bind (fun pd => lookupA d pd) = _
            rw [hsrc2]
            simp only [Option.some_bind]
            by_cases hdir : d ∈ dirfy
            · exact (confirmAll_master dirfy _ pd2 hconf d).1 hdir
            · rw [(confirmAll_master dirfy _ pd2 hconf d).2 hdir, gossipPd1_lookup]
              have hnd : d ∉ newGossipData n dyn := by
                rw [mem_newGossipData]
                tauto
              rw [if_neg hnd, hpd]
              exact hc
          · show (lookupA p (setA src pd2 n.peer_data)).bind (fun pd => lookupA d pd) = _
            rw [lookupA_setA, if_neg hps, hpd]
            simpa using hc

/-- C7 witness: n7's `Confirmed` entry for (n2, 41) survives a gossip
tick. -/
theorem confirmed_stays_witness : lookupPD wNodeTick 2 41 = some DatumStatus.Confirmed :=
  confirmed_stays wNode Event.tick wNodeTick (by decide) (by decide) 2 41 (by decide)

/-- C3: on a gossip tick, each peer's table is first backfilled — every
seen datum without an entry gains a `SentUnconfirmed` one — and then
exactly one gossip message per peer is produced (even when empty), whose
`data_you_need` is exactly the data with status `SentUnconfirmed` and
whose `data_i_received_from_you` is exactly the data with status
`ReceivedUnconfirmed` in that (backfilled) table. -/
theorem tick_messages (n : BroadcastNode) (hWF : WFNode n) :
    keysA (bgMsgs n) = keysA n.peer_data
      ∧ ∀ p pd, lookupA p n.peer_data = some pd →
          ∃ pd1, lookupA p (bg_task n).1.peer_data = some pd1
            ∧ (∀ d, lookupA d pd1
                = match lookupA d pd with
                  | some s => some s
                  | none =>
                    if d ∈ n.seen_data then some DatumStatus.SentUnconfirmed else none)
            ∧ ∃ dyn dir, lookupA p (bg_task n).2 = some (dyn, dir)
                ∧ (∀ d, d ∈ dyn ↔ lookupA d pd1 = some DatumStatus.SentUnconfirmed)
                ∧ (∀ d, d ∈ dir ↔ lookupA d pd1 = some DatumStatus.ReceivedUnconfirmed) := by
  constructor
  · have h1 : keysA (bgMsgs n) = keysA (bgBackfill n) :=
      keysA_mapVal (fun q => (sentOf q, recvOf q)) (bgBackfill n)
    have h2 : keysA (bgBackfill n) = keysA n.peer_data :=
      keysA_mapVal (backfillPeer n.seen_data) n.peer_data
    exact h1.trans h2
  · intro p pd hpd
    have hnd : (keysA (backfillPeer n.seen_data pd)).Nodup :=
      nodup_keysA_backfillPeer n.seen_data pd
        (hWF.2.1 (p, pd) (lookupA_mem p pd n.peer_data hpd))
    have hb : lookupA p (bgBackfill n)
        = (lookupA p n.peer_data).map (backfillPeer n.seen_data) :=
      lookupA_mapVal p (backfillPeer n.seen_data) n.peer_data
    have hb2 : lookupA p (bgBackfill n) = some (backfillPeer n.seen_data pd) := by
      rw [hb, hpd]
      rfl
    refine ⟨backfillPeer n.seen_data pd, ?_, ?_, ?_⟩
    · show lookupA p (bgBackfill n) = _
      exact hb2
    · intro d
      exact backfillPeer_lookup n.seen_data pd d
    · refine ⟨sentOf (backfillPeer n.seen_data pd),
        recvOf (backfillPeer n.seen_data pd), ?_, ?_, ?_⟩
      · have hmsgs : lookupA p (bgMsgs n)
            = (lookupA p (bgBackfill n)).map (fun q => (sentOf q, recvOf q)) :=
          lookupA_mapVal p (fun q => (sentOf q, recvOf q)) (bgBackfill n)
        show lookupA p (bgMsgs n) = _
        rw [hmsgs, hb2]
        rfl
      · intro d
        exact mem_statusList (backfillPeer n.seen_data pd) hnd d DatumStatus.SentUnconfirmed
      · intro d
        exact mem_statusList (backfillPeer n.seen_data pd) hnd d
          DatumStatus.ReceivedUnconfirmed

/-- C3 witness: the tick conclusion instantiated at the concrete state
`wNode2` (whose table holds one `ReceivedUnconfirmed` entry at peer 2). -/
theorem tick_messages_witness :
    keysA (bgMsgs wNode2) = keysA wNode2.peer_data
      ∧ ∀ p pd, lookupA p wNode2.peer_data = some pd →
          ∃ pd1, lookupA p (bg_task wNode2).1.peer_data = some pd1
            ∧ (∀ d, lookupA d pd1
                = match lookupA d pd with
                  | some s => some s
                  | none =>
                    if d ∈ wNode2.seen_data then some DatumStatus.SentUnconfirmed else none)
            ∧ ∃ dyn dir, lookupA p (bg_task wNode2).2 = some (dyn, dir)
                ∧ (∀ d, d ∈ dyn ↔ lookupA d pd1 = some DatumStatus.SentUnconfirmed)
                ∧ (∀ d, d ∈ dir ↔ lookupA d pd1 = some DatumStatus.ReceivedUnconfirmed) :=
  tick_messages wNode2 (by decide)

/-! ## The hypotheses of C3 and C7 are reachability invariants -/

theorem buildPeers_tables (s : Nat) (roster : List Nat) :
    ∀ e ∈ buildPeers s roster, e.2 = ([] : PeerTable) := by
  have hgen : ∀ (r : List Nat) (acc : List (Nat × PeerTable)),
      (∀ e ∈ acc, e.2 = ([] : PeerTable)) →
      ∀ e ∈ r.foldl (fun acc x => if peerCond s x then setA x [] acc else acc) acc,
        e.2 = ([] : PeerTable) := by
    intro r
    induction r with
    | nil => intro acc hacc e he; exact hacc e he
    | cons x rest ih =>
      intro acc hacc e he
      refine ih _ ?_ e he
      intro q hq
      change q ∈ (if peerCond s x then setA x [] acc else acc) at hq
      by_cases hc : peerCond s x
      · rw [if_pos hc] at hq
        rcases mem_setA x [] acc q hq with h1 | h1
        · rw [h1]
        · exact hacc q h1
      · rw [if_neg hc] at hq
        exact hacc q hq
  exact hgen roster [] (by simp)

theorem entriesSeen_initNode (i : Nat) (roster : List Nat) :
    EntriesSeen (initNode i roster) := by
  intro e he q hq
  rw [buildPeers_tables i roster e he] at hq
  simp at hq

theorem entriesSeen_step (n : BroadcastNode) (e : Event) (n' : BroadcastNode)
    (hES : EntriesSeen n) (hstep : step n e = some n') : EntriesSeen n' := by
  cases e with
  | tick =>
    simp only [step, Option.some.injEq] at hstep
    subst hstep
    intro e' he' q hq
    show q.1 ∈ n.seen_data
    rcases List.mem_map.mp he' with ⟨e0, he0, heq⟩
    have hq2 : q ∈ backfillPeer n.seen_data e0.2 := by
      rw [← heq] at hq
      exact hq
    have hk : q.1 ∈ keysA (backfillPeer n.seen_data e0.2) :=
      (mem_keysA q.1 _).mpr ⟨q.2, hq2⟩
    rcases (mem_keysA_backfillPeer n.seen_data e0.2 q.1).mp hk with h1 | h1
    · rcases (mem_keysA q.1 e0.2).mp h1 with ⟨v, hv⟩
      exact hES e0 he0 (q.1, v) hv
    · exact h1
  | msg src m =>
    cases m with
    | Broadcast d =>
      simp only [step, handle_msg, Option.some.injEq] at hstep
      subst hstep
      intro e' he' q hq
      show q.1 ∈ insertS d n.seen_data
      rw [mem_insertS]
      exact Or.inr (hES e' he' q hq)
    | Read =>
      simp only [step, handle_msg, Option.some.injEq] at hstep
      subst hstep
      exact hES
    | Topology tp =>
      simp only [step, handle_msg, Option.some.injEq] at hstep
      subst hstep
      exact hES
    | BroadcastOk =>
      simp only [step, handle_msg, Option.some.injEq] at hstep
      subst hstep
      exact hES
    | ReadOk ms =>
      simp only [step, handle_msg, Option.some.injEq] at hstep
      subst hstep
      exact hES
    | TopologyOk =>
      simp only [step, handle_msg, Option.some.injEq] at hstep
      subst hstep
      exact hES
    | Gossip dyn dirfy =>
      simp only [step, handle_msg, recordGossip] at hstep
      cases hconf : confirmAll (gossipPd1 n src dyn) dirfy with
      | none =>
        rw [hconf] at hstep
        simp at hstep
      | some pd2 =>
        rw [hconf] at hstep
        simp only [Option.some.injEq] at hstep
        subst hstep
        intro e' he' q hq
        show q.1 ∈ extendS (newGossipData n dyn) n.seen_data
        rw [mem_extendS]
        rcases mem_setA src pd2 n.peer_data e' he' with h1 | h1
        · have hq2 : q ∈ pd2 := by
            rw [h1] at hq
            exact hq
          have hk : q.1 ∈ keysA pd2 := (mem_keysA q.1 pd2).mpr ⟨q.2, hq2⟩
          rw [confirmAll_keysA dirfy _ pd2 hconf] at hk
          have hk2 : q.1 ∈ keysA (gossipPd1 n src dyn) := hk
          have hk3 := (mem_keysA_foldl_set DatumStatus.ReceivedUnconfirmed
            (newGossipData n dyn) ((lookupA src n.peer_data).getD []) q.1).mp hk2
          rcases hk3 with h2 | h2
          · exact Or.inr h2
          · cases hsp : lookupA src n.peer_data with
            | none =>
              rw [hsp] at h2
              simp [keysA] at h2
            | some pdx =>
              rw [hsp] at h2
              rcases (mem_keysA q.1 pdx).mp h2 with ⟨v, hv⟩
              exact Or.inl (hES (src, pdx) (lookupA_mem src pdx n.peer_data hsp) (q.1, v) hv)
        · exact Or.inl (hES e' h1 q hq)

theorem wfNode_initNode (i : Nat) (roster : List Nat) : WFNode (initNode i roster) := by
  refine ⟨?_, ?_, List.nodup_nil⟩
  · show (keysA (buildPeers i roster)).Nodup
    have hgen : ∀ (r : List Nat) (acc : List (Nat × PeerTable)),
        (keysA acc).Nodup →
        (keysA (r.foldl (fun acc x => if peerCond i x then setA x [] acc else acc) acc)).Nodup := by
      intro r
      induction r with
      | nil => intro acc hacc; exact hacc
      | cons x rest ih =>
        intro acc hacc
        refine ih _ ?_
        show (keysA (if peerCond i x then setA x [] acc else acc)).Nodup
        by_cases hc : peerCond i x
        · rw [if_pos hc]
          exact nodup_keysA_setA x [] acc hacc
        · rw [if_neg hc]
          exact hacc
    exact hgen roster [] (by simp [keysA])
  · intro e he
    rw [buildPeers_tables i roster e he]
    exact List.nodup_nil

theorem wfNode_step (n : BroadcastNode) (e : Event) (n' : BroadcastNode)
    (hWF : WFNode n) (hstep : step n e = some n') : WFNode n' := by
  obtain ⟨hkeys, htables, hseen⟩ := hWF
  cases e with
  | tick =>
    simp only [step, Option.some.injEq] at hstep
    subst hstep
    refine ⟨?_, ?_, hseen⟩
    · have hkeq : keysA (bgBackfill n) = keysA n.peer_data :=
        keysA_mapVal (backfillPeer n.seen_data) n.peer_data
      show (keysA (bgBackfill n)).Nodup
      rw [hkeq]
      exact hkeys
    · intro e' he'
      rcases List.mem_map.mp he' with ⟨e0, he0, heq⟩
      rw [← heq]
      exact nodup_keysA_backfillPeer n.seen_data e0.2 (htables e0 he0)
  | msg src m =>
    cases m with
    | Broadcast d =>
      simp only [step, handle_msg, Option.some.injEq] at hstep
      subst hstep
      exact ⟨hkeys, htables, nodup_insertS d n.seen_data hseen⟩
    | Read =>
      simp only [step, handle_msg, Option.some.injEq] at hstep
      subst hstep
      exact ⟨hkeys, htables, hseen⟩
    | Topology tp =>
      simp only [step, handle_msg, Option.some.injEq] at hstep
      subst hstep
      exact ⟨hkeys, htables, hseen⟩
    | BroadcastOk =>
      simp only [step, handle_msg, Option.some.injEq] at hstep
      subst hstep
      exact ⟨hkeys, htables, hseen⟩
    | ReadOk ms =>
      simp only [step, handle_msg, Option.some.injEq] at hstep
      subst hstep
      exact ⟨hkeys, htables, hseen⟩
    | TopologyOk =>
      simp only [step, handle_msg, Option.some.injEq] at hstep
      subst hstep
      exact ⟨hkeys, htables, hseen⟩
    | Gossip dyn dirfy =>
      simp only [step, handle_msg, recordGossip] at hstep
      cases hconf : confirmAll (gossipPd1 n src dyn) dirfy with
      | none =>
        rw [hconf] at hstep
        simp at hstep
      | some pd2 =>
        rw [hconf] at hstep
        simp only [Option.some.injEq] at hstep
        subst hstep
        refine ⟨?_, ?_, nodup_extendS _ n.seen_data hseen⟩
        · exact nodup_keysA_setA src pd2 n.peer_data hkeys
        · intro e' he'
          rcases mem_setA src pd2 n.peer_data e' he' with h1 | h1
          · rw [h1]
            show (keysA pd2).Nodup
            rw [confirmAll_keysA dirfy _ pd2 hconf]
            refine nodup_keysA_foldl_set DatumStatus.ReceivedUnconfirmed
              (newGossipData n dyn) ((lookupA src n.peer_data).getD []) ?_
            cases hsp : lookupA src n.peer_data with
            | none => simp [keysA]
            | some pdx =>
              simp only [Option.getD_some]
              exact htables (src, pdx) (lookupA_mem src pdx n.peer_data hsp)
          · exact htables e' h1
